import Mathlib

/-!
# Verification of the pure-toplevel annotation engine

Shallow embedding of `src/lib.rs` (crate `pure-toplevel`): a transform that
walks a parsed JavaScript module and inserts `#__PURE__` block comments in
front of eligible top-level call expressions, plus a host-bridge predicate
(`create_plugin`) that reimplements the classification over a generic,
untyped node description.

The external parser and printer (swc) are out of scope and appear only as
parameters; the tree, the comment table and the visitor are embedded
faithfully from the source.
-/

set_option maxHeartbeats 1000000

namespace PureToplevel

/-- Kind of a comment, mirroring swc `CommentKind` (`Line` or `Block`). -/
inductive CommentKind where
  | line
  | block
deriving DecidableEq, Repr

/-- A comment as stored in the comment table: its kind and its text.
The stored text of a comment excludes the comment delimiters themselves
(the text of the block comment written as slash-star `#__PURE__` star-slash
is just the string `#__PURE__`); this is the convention of the swc parser
and is also the convention of `add_pure_comment` in the source, which
stores the bare text `#__PURE__` with `CommentKind::Block`. -/
structure Comment where
  kind : CommentKind
  text : String
deriving DecidableEq, Repr

/-- The comment table (`SingleThreadedComments` leading map): a multiset of
(anchor offset, comment) pairs, kept as a list in insertion order. -/
abbrev CommentMap := List (Nat × Comment)

/-- The comments anchored as leading comments at a given offset
(`Comments::with_leading` reads this sequence). -/
def leadingAt (m : CommentMap) (pos : Nat) : List Comment :=
  (m.filter (fun p => p.1 = pos)).map (fun p => p.2)

/-- `addLeading m pos c` appends comment `c` at anchor `pos`
(`Comments::add_leading` pushes onto the vector for that position). -/
def addLeading (m : CommentMap) (pos : Nat) (c : Comment) : CommentMap :=
  m ++ [(pos, c)]

/-- Substring test on character lists: `containsSub needle hay` is true iff
`needle` occurs contiguously in `hay`.  Models Rust `str::contains` with a
string pattern. -/
def containsSub (needle : List Char) : List Char → Bool
  | [] => needle.isEmpty
  | c :: t => needle.isPrefixOf (c :: t) || containsSub needle t

/-- Rust `str::contains` on `String`s. -/
def strContains (hay needle : String) : Bool :=
  containsSub needle.data hay.data

/-- The static set of TypeScript interop helper names
(the `TSLIB_HELPERS` lazy static of the source). -/
def TSLIB_HELPERS : List String :=
  ["__createBinding", "__setModuleDefault", "__importStar", "__importDefault"]

/-- Split a character list on a separator character, keeping empty parts;
models Rust `str::split(char)` collected into a vector (and agrees with
`String.splitOn` for a one-character separator). -/
def splitOnChar (sep : Char) : List Char → List (List Char)
  | [] => [[]]
  | c :: rest =>
    let r := splitOnChar sep rest
    if c = sep then [] :: r
    else
      match r with
      | [] => [[c]]
      | h :: t => (c :: h) :: t

/-- Numeric value of a list of decimal digits (most significant first). -/
def digitsToNat (cs : List Char) : Nat :=
  cs.foldl (fun a c => a * 10 + (c.toNat - 48)) 0

/-- Models `str::parse::<i32>().is_ok()` from the Rust standard library:
an optional single leading `+` or `-` sign, then one or more ASCII digits,
and the resulting value must fit in a signed 32-bit integer. -/
def parseI32Ok (s : String) : Bool :=
  match s.data with
  | [] => false
  | c :: rest =>
    if c = '-' then
      !rest.isEmpty && rest.all Char.isDigit && decide (digitsToNat rest ≤ 2147483648)
    else if c = '+' then
      !rest.isEmpty && rest.all Char.isDigit && decide (digitsToNat rest ≤ 2147483647)
    else
      (c :: rest).all Char.isDigit && decide (digitsToNat (c :: rest) ≤ 2147483647)

/-- `is_tslib_helper_name` from the source: split the name on `$`;
one part means a plain membership test in `TSLIB_HELPERS`; two parts match
when the second parses as an `i32` and the first is a member; any other
number of parts never matches. -/
def is_tslib_helper_name (name : String) : Bool :=
  let name_parts := splitOnChar '$' name.data
  match name_parts with
  | [p] => TSLIB_HELPERS.contains (String.mk p)
  | [p1, p2] => parseI32Ok (String.mk p2) && TSLIB_HELPERS.contains (String.mk p1)
  | _ => false


/-- Expressions of the embedded tree, covering the parts of the swc AST the
visitor inspects.  A call's callee (swc `Callee`) is `Expr`, `Super` or
`Import`; the latter two are embedded as the `superKw` / `importKw`
constructors.  Statement bodies are flattened to lists of expressions,
which is faithful for this visitor: `visit_mut_children_with` recurses into
every child with the same state.  `lo` is the span's start offset
(`span.lo`). -/
inductive JsExpr where
  | ident (name : String)
  | member (obj : JsExpr) (prop : JsExpr)
  | arrow (body : List JsExpr)
  | funE (body : List JsExpr)
  | call (callee : JsExpr) (args : List JsExpr) (lo : Nat)
  | newE (callee : JsExpr) (args : List JsExpr) (lo : Nat)
  | superKw
  | importKw
  | lit
deriving Repr

/-- `PureFunctionVisitor::is_pure_candidate`: a call is a candidate only at
top level; then `Callee::Expr` is inspected — an arrow callee with a
non-empty argument list is rejected, an identifier callee is rejected
exactly when it is a tslib helper name, every other expression callee is
accepted; a non-expression callee (`super` / `import`) is rejected. -/
def is_pure_candidate (in_top_level : Bool) (callee : JsExpr) (args : List JsExpr) : Bool :=
  if !in_top_level then false
  else
    match callee with
    | .superKw => false
    | .importKw => false
    | .arrow _ => if !args.isEmpty then false else true
    | .ident name => !is_tslib_helper_name name
    | _ => true

/-- `PureFunctionVisitor::is_pure_new_expression`: a new expression is
acceptable exactly when at top level.  (In the source this function is
never called by the visitor.) -/
def is_pure_new_expression (in_top_level : Bool) : Bool :=
  in_top_level

/-- `PureFunctionVisitor::has_pure_comment`: some leading comment at the
span's start offset has text containing the substring slash-star
`#__PURE__` star-slash (written out with its delimiters) or the substring
`@__PURE__`. -/
def has_pure_comment (m : CommentMap) (lo : Nat) : Bool :=
  (leadingAt m lo).any (fun c =>
    strContains c.text "/*#__PURE__*/" || strContains c.text "@__PURE__")

/-- The comment that `add_pure_comment` inserts: a block comment whose
stored text is `#__PURE__`. -/
def pureComment : Comment :=
  { kind := CommentKind.block, text := "#__PURE__" }

/-- `PureFunctionVisitor::add_pure_comment`: insert `pureComment` as a
leading comment at the call's start offset. -/
def add_pure_comment (m : CommentMap) (lo : Nat) : CommentMap :=
  addLeading m lo pureComment

mutual

/-- The `PureAnnotator` visitor (`VisitMut`): state is the `in_top_level`
flag and the comment table; the node is returned unchanged except that
`visit_mut_call_expr` may insert a pure comment before recursing into the
children, and `visit_mut_function` / `visit_mut_arrow_expr` visit their
children with the flag cleared and the prior value restored on exit
(here: the flag is threaded as an argument, so restoration is the
recursion structure itself).  `NewExpr` has no handler in the source, so
it only recurses into its children. -/
def annExpr (top : Bool) (m : CommentMap) : JsExpr → JsExpr × CommentMap
  | .ident s => (.ident s, m)
  | .superKw => (.superKw, m)
  | .importKw => (.importKw, m)
  | .lit => (.lit, m)
  | .member o p =>
    let r1 := annExpr top m o
    let r2 := annExpr top r1.2 p
    (.member r1.1 r2.1, r2.2)
  | .arrow body =>
    let r := annList false m body
    (.arrow r.1, r.2)
  | .funE body =>
    let r := annList false m body
    (.funE r.1, r.2)
  | .call callee args lo =>
    let m0 :=
      if is_pure_candidate top callee args && !has_pure_comment m lo then
        add_pure_comment m lo
      else m
    let r1 := annExpr top m0 callee
    let r2 := annList top r1.2 args
    (.call r1.1 r2.1 lo, r2.2)
  | .newE callee args lo =>
    let r1 := annExpr top m callee
    let r2 := annList top r1.2 args
    (.newE r1.1 r2.1 lo, r2.2)

/-- Visit a list of children in order, threading the comment table. -/
def annList (top : Bool) (m : CommentMap) : List JsExpr → List JsExpr × CommentMap
  | [] => ([], m)
  | e :: rest =>
    let r1 := annExpr top m e
    let r2 := annList top r1.2 rest
    (r1.1 :: r2.1, r2.2)

end

/-- `transform` after parsing: run the visitor over the module's statements
with `in_top_level = true` (the initial state of
`PureFunctionVisitor::new`). -/
def annotateModule (stmts : List JsExpr) (m : CommentMap) : List JsExpr × CommentMap :=
  annList true m stmts

mutual

/-- Offsets of all call expressions (span starts) in an expression. -/
def callLos : JsExpr → List Nat
  | .ident _ => []
  | .superKw => []
  | .importKw => []
  | .lit => []
  | .member o p => callLos o ++ callLos p
  | .arrow body => callLosList body
  | .funE body => callLosList body
  | .call callee args lo => lo :: (callLos callee ++ callLosList args)
  | .newE callee args _ => callLos callee ++ callLosList args

/-- Offsets of all call expressions in a list of expressions. -/
def callLosList : List JsExpr → List Nat
  | [] => []
  | e :: rest => callLos e ++ callLosList rest

end

/-- The callee description of a generic (Babel-style) AST node handed to
`create_plugin`: its `type` string and, when present, its `name`.  A `none`
field models an absent property (`get_named_property` then fails). -/
structure CalleeDesc where
  calleeType : String
  name : Option String
deriving Repr

/-- A generic node description handed to `create_plugin`: the `type`
string, the `callee` object when present, and the length of the
`arguments` array when present. -/
structure JsNodeDesc where
  nodeType : String
  callee : Option CalleeDesc
  argsLen : Option Nat
deriving Repr

/-- The arguments check at the end of the `CallExpression` branch of
`create_plugin`: fetch `arguments`, return whether its length is zero. -/
def argsCheck (node : JsNodeDesc) : Except String Bool :=
  match node.argsLen with
  | none => .error "missing property: arguments"
  | some len => .ok (decide (len = 0))

/-- `create_plugin` from the source: for a `CallExpression`, read the
callee; an identifier callee whose name is a tslib helper returns `false`
at once; otherwise the call is accepted exactly when its argument list is
empty.  A `NewExpression` always returns `true`; every other node type
returns `false`.  A required property that is absent is a napi error. -/
def create_plugin (node : JsNodeDesc) : Except String Bool :=
  match node.nodeType with
  | "CallExpression" =>
    match node.callee with
    | none => .error "missing property: callee"
    | some callee =>
      if callee.calleeType = "Identifier" then
        match callee.name with
        | none => .error "missing property: name"
        | some name =>
          if is_tslib_helper_name name then .ok false
          else argsCheck node
      else argsCheck node
  | "NewExpression" => .ok true
  | _ => .ok false

/-- `parse_js` from the source, with the external swc parser abstracted as
its outcome: on a parser diagnostic `d` the function fails with the message
`Failed to parse JavaScript: ` followed by `d`; on success it hands the
module and the comment table through unchanged. -/
def parse_js (parserOutcome : Except String (List JsExpr × CommentMap)) :
    Except String (List JsExpr × CommentMap) :=
  match parserOutcome with
  | .error d => .error ("Failed to parse JavaScript: " ++ d)
  | .ok p => .ok p

/-- `transform` from the source, with the external parser and printer
abstracted: parse (via `parse_js`), run the annotator over the module with
the flag initially set, then print the annotated module and comment table.
An error at any stage is the whole result; otherwise the result is the
printer output on the complete annotated module. -/
def transform (parserOutcome : Except String (List JsExpr × CommentMap))
    (printer : List JsExpr → CommentMap → Except String String) :
    Except String String :=
  match parse_js parserOutcome with
  | .error e => .error e
  | .ok (stmts, m) =>
    let r := annotateModule stmts m
    printer r.1 r.2

/-- Follows the spec sentence (section 4.2, Allowlist policy, default-deny)
and is kept separate from the source-derived classifier to compare the two:
a call is eligible if its callee is a bare identifier, or a member access
of an identifier object and identifier property whose dotted name is in
`allowedCallees`; every other call is ineligible. -/
def spec_allowlist_eligible (allowedCallees : List String) (callee : JsExpr) : Bool :=
  match callee with
  | .ident _ => true
  | .member (.ident o) (.ident p) => allowedCallees.contains (o ++ "." ++ p)
  | _ => false

/-- Follows the claim wording: a run of digits is a non-empty string all of
whose characters are decimal digits. -/
def isDigitRun (s : String) : Bool :=
  !s.data.isEmpty && s.data.all Char.isDigit

theorem splitOnChar_ne_nil (sep : Char) : ∀ cs : List Char, splitOnChar sep cs ≠ []
  | [] => by simp [splitOnChar]
  | c :: rest => by
    have ih := splitOnChar_ne_nil sep rest
    simp only [splitOnChar]
    split
    · simp
    · cases h : splitOnChar sep rest with
      | nil => exact absurd h ih
      | cons a b => simp

theorem splitOnChar_of_not_mem (sep : Char) :
    ∀ cs : List Char, sep ∉ cs → splitOnChar sep cs = [cs]
  | [], _ => rfl
  | c :: rest, h => by
    have hc : ¬c = sep := fun hh => h (hh ▸ List.mem_cons_self c rest)
    have ih := splitOnChar_of_not_mem sep rest (fun hh => h (List.mem_cons_of_mem c hh))
    simp only [splitOnChar, if_neg hc]
    rw [ih]

theorem splitOnChar_first (sep : Char) :
    ∀ p1 p2 : List Char, sep ∉ p1 →
      splitOnChar sep (p1 ++ sep :: p2) = p1 :: splitOnChar sep p2
  | [], p2, _ => by simp [splitOnChar]
  | c :: p1, p2, h => by
    have hc : ¬c = sep := fun hh => h (hh ▸ List.mem_cons_self c p1)
    have ih := splitOnChar_first sep p1 p2 (fun hh => h (List.mem_cons_of_mem c hh))
    simp only [List.cons_append, splitOnChar, if_neg hc, List.append_eq]
    rw [ih]

theorem eq_of_splitOnChar_single (sep : Char) :
    ∀ cs p : List Char, splitOnChar sep cs = [p] → cs = p ∧ sep ∉ cs
  | [], p, h => by
    simp only [splitOnChar, List.cons.injEq, and_true] at h
    exact ⟨h, by simp⟩
  | c :: rest, p, h => by
    simp only [splitOnChar] at h
    by_cases hc : c = sep
    · rw [if_pos hc] at h
      simp only [List.cons.injEq] at h
      exact absurd h.2 (splitOnChar_ne_nil sep rest)
    · rw [if_neg hc] at h
      cases hr : splitOnChar sep rest with
      | nil => exact absurd hr (splitOnChar_ne_nil sep rest)
      | cons a b =>
        rw [hr] at h
        simp only [List.cons.injEq] at h
        obtain ⟨hp, hb⟩ := h
        subst hb
        obtain ⟨h1, h2⟩ := eq_of_splitOnChar_single sep rest a hr
        subst h1
        subst hp
        refine ⟨rfl, ?_⟩
        simp only [List.mem_cons, not_or]
        exact ⟨fun hh => hc hh.symm, h2⟩

theorem eq_of_splitOnChar_pair (sep : Char) :
    ∀ cs p1 p2 : List Char, splitOnChar sep cs = [p1, p2] →
      cs = p1 ++ sep :: p2 ∧ sep ∉ p1 ∧ sep ∉ p2
  | [], p1, p2, h => by simp [splitOnChar] at h
  | c :: rest, p1, p2, h => by
    simp only [splitOnChar] at h
    by_cases hc : c = sep
    · rw [if_pos hc] at h
      simp only [List.cons.injEq] at h
      obtain ⟨hp1, hrest⟩ := h
      obtain ⟨h1, h2⟩ := eq_of_splitOnChar_single sep rest p2 (by rw [hrest])
      subst h1
      subst hc
      exact ⟨by rw [← hp1]; rfl, by rw [← hp1]; simp, h2⟩
    · rw [if_neg hc] at h
      cases hr : splitOnChar sep rest with
      | nil => exact absurd hr (splitOnChar_ne_nil sep rest)
      | cons a b =>
        rw [hr] at h
        simp only [List.cons.injEq] at h
        obtain ⟨hp1, hb⟩ := h
        subst hb
        obtain ⟨h1, h2, h3⟩ := eq_of_splitOnChar_pair sep rest a p2 hr
        subst h1
        subst hp1
        refine ⟨rfl, ?_, h3⟩
        simp only [List.mem_cons, not_or]
        exact ⟨fun hh => hc hh.symm, h2⟩

theorem containsSub_append_self (n : List Char) :
    ∀ l : List Char, containsSub n (l ++ n) = true
  | [] => by
    cases n with
    | nil => simp [containsSub]
    | cons c t =>
      simp only [List.nil_append, containsSub, Bool.or_eq_true]
      exact Or.inl (by simp [List.isPrefixOf_iff_prefix])
  | c :: t => by
    simp only [List.cons_append, containsSub, Bool.or_eq_true]
    exact Or.inr (containsSub_append_self n t)

theorem strContains_append (a d : String) : strContains (a ++ d) d = true := by
  simp only [strContains, String.data_append]
  exact containsSub_append_self d.data a.data

mutual

theorem annExpr_fst : ∀ (top : Bool) (m : CommentMap) (e : JsExpr),
    (annExpr top m e).1 = e
  | _, _, .ident _ => rfl
  | _, _, .superKw => rfl
  | _, _, .importKw => rfl
  | _, _, .lit => rfl
  | top, m, .member o p => by
    simp only [annExpr]
    rw [annExpr_fst top m o, annExpr_fst top (annExpr top m o).2 p]
  | top, m, .arrow body => by
    simp only [annExpr]
    rw [annList_fst false m body]
  | top, m, .funE body => by
    simp only [annExpr]
    rw [annList_fst false m body]
  | top, m, .call callee args lo => by
    simp only [annExpr]
    rw [annExpr_fst, annList_fst]
  | top, m, .newE callee args lo => by
    simp only [annExpr]
    rw [annExpr_fst, annList_fst]

theorem annList_fst : ∀ (top : Bool) (m : CommentMap) (es : List JsExpr),
    (annList top m es).1 = es
  | _, _, [] => rfl
  | top, m, e :: rest => by
    simp only [annList]
    rw [annExpr_fst, annList_fst]

end



mutual

theorem annExpr_append : ∀ (top : Bool) (m : CommentMap) (e : JsExpr),
    ∃ extra : CommentMap, (annExpr top m e).2 = m ++ extra ∧
      ∀ q ∈ extra, q.2 = pureComment ∧ q.1 ∈ callLos e
  | _, m, .ident s => ⟨[], by simp [annExpr], by simp⟩
  | _, m, .superKw => ⟨[], by simp [annExpr], by simp⟩
  | _, m, .importKw => ⟨[], by simp [annExpr], by simp⟩
  | _, m, .lit => ⟨[], by simp [annExpr], by simp⟩
  | top, m, .member o p => by
    obtain ⟨e1, h1, hm1⟩ := annExpr_append top m o
    obtain ⟨e2, h2, hm2⟩ := annExpr_append top (annExpr top m o).2 p
    refine ⟨e1 ++ e2, ?_, ?_⟩
    · simp only [annExpr]
      rw [h2, h1, List.append_assoc]
    · intro q hq
      rcases List.mem_append.mp hq with h | h
      · exact ⟨(hm1 q h).1, by simp [callLos, (hm1 q h).2]⟩
      · exact ⟨(hm2 q h).1, by simp [callLos, (hm2 q h).2]⟩
  | top, m, .arrow body => by
    obtain ⟨e1, h1, hm1⟩ := annList_append false m body
    refine ⟨e1, ?_, ?_⟩
    · simp only [annExpr]; rw [h1]
    · intro q hq
      exact ⟨(hm1 q hq).1, by simp [callLos, (hm1 q hq).2]⟩
  | top, m, .funE body => by
    obtain ⟨e1, h1, hm1⟩ := annList_append false m body
    refine ⟨e1, ?_, ?_⟩
    · simp only [annExpr]; rw [h1]
    · intro q hq
      exact ⟨(hm1 q hq).1, by simp [callLos, (hm1 q hq).2]⟩
  | top, m, .call callee args lo => by
    by_cases hc : (is_pure_candidate top callee args && !has_pure_comment m lo) = true
    · obtain ⟨e1, h1, hm1⟩ := annExpr_append top (add_pure_comment m lo) callee
      obtain ⟨e2, h2, hm2⟩ :=
        annList_append top (annExpr top (add_pure_comment m lo) callee).2 args
      refine ⟨(lo, pureComment) :: (e1 ++ e2), ?_, ?_⟩
      · simp only [annExpr, hc, if_pos]
        rw [h2, h1]
        simp [add_pure_comment, addLeading]
      · intro q hq
        rcases List.mem_cons.mp hq with h | h
        · subst h; exact ⟨rfl, by simp [callLos]⟩
        · rcases List.mem_append.mp h with h' | h'
          · exact ⟨(hm1 q h').1, by simp [callLos, (hm1 q h').2]⟩
          · exact ⟨(hm2 q h').1, by simp [callLos, (hm2 q h').2]⟩
    · obtain ⟨e1, h1, hm1⟩ := annExpr_append top m callee
      obtain ⟨e2, h2, hm2⟩ := annList_append top (annExpr top m callee).2 args
      refine ⟨e1 ++ e2, ?_, ?_⟩
      · simp only [annExpr, hc, if_neg, Bool.not_eq_true]
        rw [h2, h1, List.append_assoc]
      · intro q hq
        rcases List.mem_append.mp hq with h | h
        · exact ⟨(hm1 q h).1, by simp [callLos, (hm1 q h).2]⟩
        · exact ⟨(hm2 q h).1, by simp [callLos, (hm2 q h).2]⟩
  | top, m, .newE callee args lo => by
    obtain ⟨e1, h1, hm1⟩ := annExpr_append top m callee
    obtain ⟨e2, h2, hm2⟩ := annList_append top (annExpr top m callee).2 args
    refine ⟨e1 ++ e2, ?_, ?_⟩
    · simp only [annExpr]
      rw [h2, h1, List.append_assoc]
    · intro q hq
      rcases List.mem_append.mp hq with h | h
      · exact ⟨(hm1 q h).1, by simp [callLos, (hm1 q h).2]⟩
      · exact ⟨(hm2 q h).1, by simp [callLos, (hm2 q h).2]⟩

theorem annList_append : ∀ (top : Bool) (m : CommentMap) (es : List JsExpr),
    ∃ extra : CommentMap, (annList top m es).2 = m ++ extra ∧
      ∀ q ∈ extra, q.2 = pureComment ∧ q.1 ∈ callLosList es
  | _, m, [] => ⟨[], by simp [annList], by simp⟩
  | top, m, e :: rest => by
    obtain ⟨e1, h1, hm1⟩ := annExpr_append top m e
    obtain ⟨e2, h2, hm2⟩ := annList_append top (annExpr top m e).2 rest
    refine ⟨e1 ++ e2, ?_, ?_⟩
    · simp only [annList]
      rw [h2, h1, List.append_assoc]
    · intro q hq
      rcases List.mem_append.mp hq with h | h
      · exact ⟨(hm1 q h).1, by simp [callLosList, (hm1 q h).2]⟩
      · exact ⟨(hm2 q h).1, by simp [callLosList, (hm2 q h).2]⟩

end

mutual

theorem annExpr_false : ∀ (m : CommentMap) (e : JsExpr),
    annExpr false m e = (e, m)
  | _, .ident _ => rfl
  | _, .superKw => rfl
  | _, .importKw => rfl
  | _, .lit => rfl
  | m, .member o p => by
    simp only [annExpr]
    rw [annExpr_false m o]
    rw [annExpr_false m p]
  | m, .arrow body => by
    simp only [annExpr]
    rw [annList_false m body]
  | m, .funE body => by
    simp only [annExpr]
    rw [annList_false m body]
  | m, .call callee args lo => by
    have hc : is_pure_candidate false callee args = false := by
      simp [is_pure_candidate]
    simp only [annExpr, hc, Bool.false_and, Bool.false_eq_true, if_false]
    rw [annExpr_false m callee]
    rw [annList_false m args]
  | m, .newE callee args lo => by
    simp only [annExpr]
    rw [annExpr_false m callee]
    rw [annList_false m args]

theorem annList_false : ∀ (m : CommentMap) (es : List JsExpr),
    annList false m es = (es, m)
  | _, [] => rfl
  | m, e :: rest => by
    simp only [annList]
    rw [annExpr_false m e]
    rw [annList_false m rest]

end

/-- C1: the claim says each call start offset receives the annotation at
most once and re-running is idempotent, the check-then-insert guard
recognizing an existing pure comment.  The code violates this: the guard
searches comment text for the delimiter-bearing string, but stored block
comment text has no delimiters — in particular the text `#__PURE__` that
`add_pure_comment` itself stores is not recognized.  First conjunct: on a
module for the source `f()();` (outer and inner call share start offset 0)
one run inserts two markers at offset 0.  Second conjunct: on the reparse
of annotated output `/*#__PURE__*/ foo();` (a block comment with stored
text `#__PURE__` anchored at the call offset) a second marker is added. -/
theorem C1_duplicate_markers :
    (annotateModule [JsExpr.call (JsExpr.call (JsExpr.ident "f") [] 0) [] 0] []).2 =
      [(0, pureComment), (0, pureComment)] ∧
    (annotateModule [JsExpr.call (JsExpr.ident "foo") [] 14] [(14, pureComment)]).2 =
      [(14, pureComment), (14, pureComment)] ∧
    has_pure_comment [(14, pureComment)] 14 = false := by
  exact ⟨by decide, by decide, by decide⟩

/-- C2: the claim says every top-level `New` expression receives a marker.
The code never annotates a `New` expression: the visitor has no
`visit_mut_new_expr` handler and `is_pure_new_expression` is never called,
even though it would accept a top-level new expression (second conjunct).
First conjunct: transforming the module for `new Foo();` adds nothing. -/
theorem C2_new_never_annotated :
    (annotateModule [JsExpr.newE (JsExpr.ident "Foo") [] 4] []).2 = [] ∧
    is_pure_new_expression true = true := by
  exact ⟨by decide, by decide⟩

/-- C3 counterexample: a top-level dynamic import call (callee the `import`
keyword, one argument) is classified Ineligible by the code, yet its callee
is neither an `ArrowFunction` literal nor an `Identifier`, so the claim's
`if and only if` says it should be Eligible. -/
theorem C3_counterexample :
    is_pure_candidate true JsExpr.importKw [JsExpr.ident "m"] = false ∧
    (∀ b : List JsExpr, JsExpr.importKw ≠ JsExpr.arrow b) ∧
    (∀ n : String, JsExpr.importKw ≠ JsExpr.ident n) := by
  refine ⟨by decide, fun b h => ?_, fun n h => ?_⟩
  · cases h
  · cases h

/-- C3 (amended): a top-level `Call` is Ineligible under the code's
blocklist exactly when its callee is the `super` or `import` keyword (a
non-expression callee), or an `ArrowFunction` literal with a non-empty
argument list, or an `Identifier` whose name matches the helper matcher;
every other top-level call is Eligible. -/
theorem C3_blocklist_classification (callee : JsExpr) (args : List JsExpr) :
    is_pure_candidate true callee args = false ↔
      callee = JsExpr.superKw ∨ callee = JsExpr.importKw ∨
        ((∃ b, callee = JsExpr.arrow b) ∧ args ≠ []) ∨
        (∃ n, callee = JsExpr.ident n ∧ is_tslib_helper_name n = true) := by
  cases callee <;>
    simp [is_pure_candidate, List.isEmpty_iff]



/-- C4 counterexample: the claim says a helper name followed by `$` and a
run of digits is matched.  `99999999999` is a run of digits, yet the code
rejects `__importStar$99999999999`, because the second part must parse as
a 32-bit signed integer and this value overflows; `__importStar` itself is
matched. -/
theorem C4_counterexample :
    isDigitRun "99999999999" = true ∧
    is_tslib_helper_name "__importStar$99999999999" = false ∧
    is_tslib_helper_name "__importStar" = true := by
  exact ⟨by decide, by decide, by decide⟩

/-- C4 (amended): the matcher returns true exactly for a name equal to one
of the four helper names, or such a name followed by a single `$` and a
second part that parses as a signed 32-bit integer (optional sign, digits,
value within the `i32` range); more than one `$`, or a second part that
does not parse as an `i32` — including an all-digit run whose value
overflows — never match. -/
theorem C4_matcher_characterization (name : String) :
    is_tslib_helper_name name = true ↔
      name ∈ TSLIB_HELPERS ∨
        ∃ p1 p2 : List Char, name.data = p1 ++ '$' :: p2 ∧ '$' ∉ p1 ∧ '$' ∉ p2 ∧
          String.mk p1 ∈ TSLIB_HELPERS ∧ parseI32Ok (String.mk p2) = true := by
  constructor
  · intro h
    simp only [is_tslib_helper_name] at h
    cases h1 : splitOnChar '$' name.data with
    | nil =>
      have h0 : false = true := by rw [h1] at h; exact h
      exact absurd h0 (by simp)
    | cons p rest =>
      cases rest with
      | nil =>
        obtain ⟨he, _⟩ := eq_of_splitOnChar_single '$' name.data p h1
        have h2 : TSLIB_HELPERS.contains (String.mk p) = true := by
          rw [h1] at h; exact h
        left
        have hmk : String.mk p = name := by rw [← he]
        rw [hmk] at h2
        exact List.mem_of_elem_eq_true h2
      | cons p2 rest2 =>
        cases rest2 with
        | nil =>
          have h3 : (parseI32Ok (String.mk p2) && TSLIB_HELPERS.contains (String.mk p)) = true := by
            rw [h1] at h; exact h
          simp only [Bool.and_eq_true] at h3
          obtain ⟨hd, hn1, hn2⟩ := eq_of_splitOnChar_pair '$' name.data p p2 h1
          exact Or.inr ⟨p, p2, hd, hn1, hn2, List.mem_of_elem_eq_true h3.2, h3.1⟩
        | cons q qs =>
          have h4 : false = true := by rw [h1] at h; exact h
          exact absurd h4 (by simp)
  · intro h
    rcases h with hmem | ⟨p1, p2, hd, h1, h2, hmem, hparse⟩
    · have hnd : '$' ∉ name.data := by
        simp only [TSLIB_HELPERS, List.mem_cons, List.not_mem_nil, or_false] at hmem
        rcases hmem with rfl | rfl | rfl | rfl <;> decide
      simp only [is_tslib_helper_name, splitOnChar_of_not_mem '$' name.data hnd]
      exact List.elem_eq_true_of_mem hmem
    · simp only [is_tslib_helper_name, hd, splitOnChar_first '$' p1 p2 h1,
        splitOnChar_of_not_mem '$' p2 h2, Bool.and_eq_true]
      exact ⟨hparse, List.elem_eq_true_of_mem hmem⟩



/-- C5: no call-like expression nested inside a function or arrow-function
body is ever annotated, whatever the surrounding flag (so also for bodies
reached through arguments of a top-level call): visiting a function or
arrow node returns the node and the comment table unchanged.  The last two
conjuncts exhibit the stack discipline: after such a node, the rest of the
list is visited with the original flag and the untouched comment table. -/
theorem C5_nested_bodies_unannotated (top : Bool) (m : CommentMap) (body rest : List JsExpr) :
    annExpr top m (JsExpr.funE body) = (JsExpr.funE body, m) ∧
    annExpr top m (JsExpr.arrow body) = (JsExpr.arrow body, m) ∧
    annList top m (JsExpr.funE body :: rest) =
      (JsExpr.funE body :: (annList top m rest).1, (annList top m rest).2) ∧
    annList top m (JsExpr.arrow body :: rest) =
      (JsExpr.arrow body :: (annList top m rest).1, (annList top m rest).2) := by
  have hf : annExpr top m (JsExpr.funE body) = (JsExpr.funE body, m) := by
    simp only [annExpr]
    rw [annList_false]
  have ha : annExpr top m (JsExpr.arrow body) = (JsExpr.arrow body, m) := by
    simp only [annExpr]
    rw [annList_false]
  refine ⟨hf, ha, ?_, ?_⟩
  · simp only [annList]
    rw [hf]
  · simp only [annList]
    rw [ha]

/-- C6: the host-bridge predicate `create_plugin` on a `CallExpression`
returns false for an identifier callee whose name matches the helper
matcher, and otherwise returns whether the arguments array is empty; a
`NewExpression` always yields true; any other node type yields false. -/
theorem C6_bridge_predicate :
    (∀ (nm : String) (oa : Option Nat), is_tslib_helper_name nm = true →
        create_plugin ⟨"CallExpression", some ⟨"Identifier", some nm⟩, oa⟩ =
          Except.ok false) ∧
    (∀ (nm : String) (n : Nat), is_tslib_helper_name nm = false →
        create_plugin ⟨"CallExpression", some ⟨"Identifier", some nm⟩, some n⟩ =
          Except.ok (decide (n = 0))) ∧
    (∀ (ct : String) (onm : Option String) (n : Nat), ct ≠ "Identifier" →
        create_plugin ⟨"CallExpression", some ⟨ct, onm⟩, some n⟩ =
          Except.ok (decide (n = 0))) ∧
    (∀ (oc : Option CalleeDesc) (oa : Option Nat),
        create_plugin ⟨"NewExpression", oc, oa⟩ = Except.ok true) ∧
    (∀ (t : String) (oc : Option CalleeDesc) (oa : Option Nat),
        t ≠ "CallExpression" → t ≠ "NewExpression" →
          create_plugin ⟨t, oc, oa⟩ = Except.ok false) := by
  refine ⟨?_, ?_, ?_, ?_, ?_⟩
  · intro nm oa h
    simp [create_plugin, h]
  · intro nm n h
    simp [create_plugin, argsCheck, h]
  · intro ct onm n h
    simp [create_plugin, argsCheck, h]
  · intro oc oa
    simp [create_plugin]
  · intro t oc oa h1 h2
    simp only [create_plugin]

/-- C6 witness: the bridge predicate evaluated at concrete nodes, among
them the spec's scenario F pair. -/
theorem C6_bridge_witness :
    create_plugin ⟨"CallExpression", some ⟨"Identifier", some "__importStar"⟩, some 0⟩ =
      Except.ok false ∧
    create_plugin ⟨"CallExpression", some ⟨"Identifier", some "bar"⟩, some 1⟩ =
      Except.ok false ∧
    create_plugin ⟨"CallExpression", some ⟨"Identifier", some "foo"⟩, some 0⟩ =
      Except.ok true ∧
    create_plugin ⟨"CallExpression", some ⟨"MemberExpression", none⟩, some 2⟩ =
      Except.ok false ∧
    create_plugin ⟨"NewExpression", some ⟨"Identifier", some "MyClass"⟩, none⟩ =
      Except.ok true ∧
    create_plugin ⟨"Identifier", none, none⟩ = Except.ok false := by
  refine ⟨C6_bridge_predicate.1 "__importStar" (some 0) (by decide), ?_, ?_, ?_,
    C6_bridge_predicate.2.2.2.1 (some ⟨"Identifier", some "MyClass"⟩) none,
    C6_bridge_predicate.2.2.2.2 "Identifier" none none (by decide) (by decide)⟩
  · have h := C6_bridge_predicate.2.1 "bar" 1 (by decide)
    simpa using h
  · have h := C6_bridge_predicate.2.1 "foo" 0 (by decide)
    simpa using h
  · have h := C6_bridge_predicate.2.2.1 "MemberExpression" none 2 (by decide)
    simpa using h



/-- C7 counterexample: the claim says both classification policies are
selectable by the caller.  `transform` takes no policy value at all: its
classifier unconditionally accepts a top-level member-access call (the
blocklist behavior), while the spec's default-deny allowlist with its
empty `allowedCallees` configuration rejects the same call, and no input
of `transform` can select that behavior. -/
theorem C7_counterexample :
    is_pure_candidate true (JsExpr.member (JsExpr.ident "Math") (JsExpr.ident "random")) [] =
      true ∧
    spec_allowlist_eligible [] (JsExpr.member (JsExpr.ident "Math") (JsExpr.ident "random")) =
      false := by
  exact ⟨by decide, by decide⟩

/-- C7 (amended): the transform hard-codes the blocklist policy — its
classifier accepts every top-level member-access call with no
configuration consulted, whereas the spec's allowlist policy with an empty
`allowedCallees` set rejects every member-access call; only the former is
implemented. -/
theorem C7_policy_hardcoded (obj prop : JsExpr) (args : List JsExpr) :
    is_pure_candidate true (JsExpr.member obj prop) args = true ∧
    spec_allowlist_eligible [] (JsExpr.member obj prop) = false := by
  constructor
  · simp [is_pure_candidate]
  · cases obj <;> cases prop <;> simp [spec_allowlist_eligible]

/-- C8: when the external parser reports a diagnostic, `transform` fails
with an error whose message contains that diagnostic; when parsing
succeeds, the result is exactly the printer output on the completely
annotated module — there is no third outcome and no partial result. -/
theorem C8_parse_error_propagation :
    (∀ (d : String) (printer : List JsExpr → CommentMap → Except String String),
        transform (Except.error d) printer =
          Except.error ("Failed to parse JavaScript: " ++ d) ∧
        strContains ("Failed to parse JavaScript: " ++ d) d = true) ∧
    (∀ (stmts : List JsExpr) (m : CommentMap)
        (printer : List JsExpr → CommentMap → Except String String),
        transform (Except.ok (stmts, m)) printer =
          printer (annotateModule stmts m).1 (annotateModule stmts m).2) := by
  constructor
  · intro d printer
    exact ⟨rfl, strContains_append "Failed to parse JavaScript: " d⟩
  · intro stmts m printer
    rfl

/-- C9: the annotation pass never changes the tree and never removes or
rewrites a comment: the returned tree equals the input tree, the output
comment table extends the input table, and every added entry is the pure
marker block comment with text `#__PURE__` anchored at the start offset of
some call expression of the module. -/
theorem C9_tree_and_comments_preserved (stmts : List JsExpr) (m : CommentMap) :
    (annotateModule stmts m).1 = stmts ∧
    ∃ extra : CommentMap, (annotateModule stmts m).2 = m ++ extra ∧
      ∀ q ∈ extra, q.2 = pureComment ∧ q.1 ∈ callLosList stmts := by
  exact ⟨annList_fst true m stmts, annList_append true m stmts⟩

/-- C10: a call whose callee is not an ordinary expression — a `super(...)`
call or a dynamic `import(...)` call — is never a pure candidate, at top
level or anywhere else, whatever its arguments. -/
theorem C10_super_import_ineligible (top : Bool) (args : List JsExpr) :
    is_pure_candidate top JsExpr.superKw args = false ∧
    is_pure_candidate top JsExpr.importKw args = false := by
  cases top <;> simp [is_pure_candidate]

end PureToplevel
